import Mathlib

/-!
Shallow embedding of the CPU quotient-accumulation stage
(`crates/prover/src/core/backend/cpu/quotients.rs`) of the stwo prover.

The secure field `K`, the base field `B`, the embedding `f : B → K`, the
complex conjugation `conj`, the field inversion `finv` and the pair-vanishing
evaluation `pair_vanishing` are external collaborators of this module; they
are abstracted as parameters, or modelled from the specification where a
definition is required.  Panics of the source (out-of-range indexing,
`zip_eq` length mismatch, inverting zero) are modelled with `Except QErr`.
-/

namespace Stwo

/-- A point on the circle, with the `x` and `y` coordinates used by the
quotient arithmetic (`CirclePoint` in the source). -/
structure CirclePoint (α : Type) where
  x : α
  y : α
deriving DecidableEq, Repr

/-- Modelled from the spec: the evaluation-domain collaborator
(`CircleDomain`, not under `src/`), exposing `log_size` and natural-order
point lookup `at`; `size = 2 ^ log_size`. -/
structure CircleDomain (B : Type) where
  logSize : ℕ
  pts : ℕ → CirclePoint B

/-- The number of points of a domain, `2 ^ log_size`. -/
def CircleDomain.size {B : Type} (d : CircleDomain B) : ℕ := 2 ^ d.logSize

/-- `ColumnSampleBatch`: one sample point together with the ordered list of
(column index, claimed value) pairs sharing that point. -/
structure ColumnSampleBatch (K : Type) where
  point : CirclePoint K
  columns_and_values : List (ℕ × K)
deriving DecidableEq, Repr

instance {K : Type} [Zero K] : Inhabited (ColumnSampleBatch K) :=
  ⟨⟨⟨0, 0⟩, []⟩⟩

/-- Error kinds of one accumulation call; in the source each is a panic site
(out-of-range slice indexing, `zip_eq` length mismatch, inverting zero). -/
inductive QErr where
  | IndexOutOfRange
  | ShapeMismatch
  | InvalidSample
deriving DecidableEq, Repr

/-- Holds the precomputed constant values used in each quotient evaluation
(`QuotientConstants` in the source; the backend column buffer of denominator
inverses is modelled as one list per batch). -/
structure QuotientConstants (K : Type) where
  line_coeffs : List (List (K × K × K))
  batch_random_coeffs : List K
  denominator_inverses : List (List K)
deriving Repr

/-- Modelled from the spec: `bit_reverse_index` from the utils collaborator
(not under `src/`) reverses the low `k` bits of a row index. -/
def bit_reverse_index : ℕ → ℕ → ℕ
  | _, 0 => 0
  | i, k + 1 => i % 2 * 2 ^ k + bit_reverse_index (i / 2) k

/-- Modelled from the spec: the `bit_reverse` permutation on a sequence of
length `2 ^ k` (not under `src/`); entry `i` of the result is entry
`bit_reverse_index i k` of the input. -/
def bit_reverse {K : Type} [Zero K] (l : List K) (k : ℕ) : List K :=
  (List.range (2 ^ k)).map fun i => l.getD (bit_reverse_index i k) 0

/-- Modelled from the spec: `CirclePoint::into_ef` (not under `src/`), lifting
a base-field point into the extension field through the embedding `f`. -/
def into_ef {B K : Type} (f : B → K) (p : CirclePoint B) : CirclePoint K :=
  ⟨f p.x, f p.y⟩

/-- Modelled from the spec: `CirclePoint::complex_conjugate` (not under
`src/`) applies the field conjugation `conj` to both coordinates. -/
def point_conjugate {K : Type} (conj : K → K) (p : CirclePoint K) : CirclePoint K :=
  ⟨conj p.x, conj p.y⟩

/-- Running product of a list, folded from the left as the batched-inversion
pass accumulates it. -/
def prodL {K : Type} [CommRing K] (l : List K) : K := l.foldl (· * ·) 1

/-- Back-substitution pass of the batched inversion: `pre` is the product of
the already-consumed prefix and `tinv` the inverse of the total product; each
element's inverse is recovered with multiplications only. -/
def invertAux {K : Type} [CommRing K] (tinv : K) : K → List K → List K
  | _, [] => []
  | pre, x :: xs => pre * prodL xs * tinv :: invertAux tinv (pre * x) xs

/-- Modelled from the spec: `SecureField::batch_inverse` (field-algebra
collaborator, not under `src/`): all inverses are computed with a single field
inversion `finv` of the running product plus multiplications; a zero entry is
a fatal condition ("Zero has no inverse"), modelled as `none`. -/
def batch_inverse {K : Type} [CommRing K] [DecidableEq K] (finv : K → K)
    (l : List K) : Option (List K) :=
  if ∀ x ∈ l, x ≠ 0 then some (invertAux (finv (prodL l)) 1 l) else none

/-- Splits a flat buffer into `cnt` consecutive chunks of `n` entries each
(`chunks_mut(domain.size())` over a buffer holding `cnt` segments). -/
def chunksExact {α : Type} (n : ℕ) : ℕ → List α → List (List α)
  | 0, _ => []
  | cnt + 1, l => l.take n :: chunksExact n cnt (l.drop n)

/-- `itertools::zip_eq`: pairs two lists, a length mismatch being a panic in
the source. -/
def zip_eq {α β : Type} (l₁ : List α) (l₂ : List β) : Option (List (α × β)) :=
  if l₁.length = l₂.length then some (l₁.zip l₂) else none

/-- `itertools::izip!` over four parallel lists (truncating at the shortest,
as iterator zipping does). -/
def zip4 {α β γ δ : Type} : List α → List β → List γ → List δ → List (α × β × γ × δ)
  | a :: ta, b :: tb, c :: tc, d :: td => (a, b, c, d) :: zip4 ta tb tc td
  | _, _, _, _ => []

/-- Modelled from the spec: `complex_conjugate_line_coeffs` (constraints
collaborator, not under `src/`).  Per §4.1 it derives `(a, b, c)` such that
`a * y + b` is the line through `(point.y, value)` and
`(conj point.y, conj value)`, and `c` is the running weight `alpha`. -/
def complex_conjugate_line_coeffs {K : Type} [CommRing K] (conj finv : K → K)
    (point : CirclePoint K) (value : K) (alpha : K) : K × K × K :=
  let a := (conj value - value) * finv (conj point.y - point.y)
  let b := value - a * point.y
  (a, b, alpha)

/-- The running-`alpha` traversal of one batch's claimed values: `alpha` is
multiplied by the random challenge before each column's coefficients are
derived. -/
def lineCoeffsAux {K : Type} [CommRing K] (conj finv : K → K) (point : CirclePoint K)
    (random_coeff : K) : K → List K → List (K × K × K)
  | _, [] => []
  | alpha, v :: vs =>
    complex_conjugate_line_coeffs conj finv point v (alpha * random_coeff) ::
      lineCoeffsAux conj finv point random_coeff (alpha * random_coeff) vs

/-- Precompute the complex conjugate line coefficients for each column in each
sample batch (`column_line_coeffs`). -/
def column_line_coeffs {K : Type} [CommRing K] (conj finv : K → K)
    (sample_batches : List (ColumnSampleBatch K)) (random_coeff : K) :
    List (List (K × K × K)) :=
  sample_batches.map fun sb =>
    lineCoeffsAux conj finv sb.point random_coeff 1 (sb.columns_and_values.map Prod.snd)

/-- Precompute the random coefficients used to linearly combine the batched
quotients (`batch_random_coeffs`): for each batch,
`random_coeff ^ (number of columns in the batch)`. -/
def batch_random_coeffs {K : Type} [CommRing K]
    (sample_batches : List (ColumnSampleBatch K)) (random_coeff : K) : List K :=
  sample_batches.map fun sb => random_coeff ^ sb.columns_and_values.length

/-- One batch's denominator column: the pair-vanishing value of the batch
point and its conjugate, at every domain row in natural order. -/
def batchDenominators {B K : Type} (f : B → K) (conj : K → K)
    (pair_vanishing : CirclePoint K → CirclePoint K → CirclePoint K → K)
    (sb : ColumnSampleBatch K) (domain : CircleDomain B) : List K :=
  (List.range domain.size).map fun row =>
    pair_vanishing sb.point (point_conjugate conj sb.point) (into_ef f (domain.pts row))

/-- `denominator_inverses`: flatten all batch denominator columns, invert them
in one batched pass, split back into per-batch segments of `domain.size()`
entries and bit-reverse each; a zero denominator aborts with
`InvalidSample`. -/
def denominator_inverses {B K : Type} [CommRing K] [DecidableEq K] (f : B → K)
    (conj finv : K → K)
    (pair_vanishing : CirclePoint K → CirclePoint K → CirclePoint K → K)
    (sample_batches : List (ColumnSampleBatch K)) (domain : CircleDomain B) :
    Except QErr (List (List K)) :=
  let flat := sample_batches.flatMap fun sb => batchDenominators f conj pair_vanishing sb domain
  match batch_inverse finv flat with
  | none => .error .InvalidSample
  | some invs => .ok ((chunksExact domain.size sample_batches.length invs).map
      fun seg => bit_reverse seg domain.logSize)

/-- `quotient_constants`: assembles the three groups of precomputed
constants. -/
def quotient_constants {B K : Type} [CommRing K] [DecidableEq K] (f : B → K)
    (conj finv : K → K)
    (pair_vanishing : CirclePoint K → CirclePoint K → CirclePoint K → K)
    (sample_batches : List (ColumnSampleBatch K)) (random_coeff : K)
    (domain : CircleDomain B) : Except QErr (QuotientConstants K) := do
  let di ← denominator_inverses f conj finv pair_vanishing sample_batches domain
  pure { line_coeffs := column_line_coeffs conj finv sample_batches random_coeff
         batch_random_coeffs := batch_random_coeffs sample_batches random_coeff
         denominator_inverses := di }

/-- The inner numerator loop of the row accumulator: for each claim paired
with its line coefficients, add `column[row] * c - (a * y + b)`; a column read
out of range is a panic in the source. -/
def numLoop {B K : Type} [CommRing K] (f : B → K) (columns : List (List B)) (row : ℕ)
    (domain_point : CirclePoint B) :
    List ((ℕ × K) × (K × K × K)) → K → Except QErr K
  | [], num => .ok num
  | ((ci, _), (a, b, c)) :: rest, num =>
    match columns.get? ci with
    | none => .error .IndexOutOfRange
    | some col =>
      match col.get? row with
      | none => .error .IndexOutOfRange
      | some v =>
        numLoop f columns row domain_point rest
          (num + (f v * c - (a * f domain_point.y + b)))

/-- The outer batch loop of the row accumulator over the zipped batch and
constant lists. -/
def rowAccum {B K : Type} [CommRing K] (f : B → K) (columns : List (List B)) (row : ℕ)
    (domain_point : CirclePoint B) :
    List (ColumnSampleBatch K × List (K × K × K) × K × List K) → K → Except QErr K
  | [], acc => .ok acc
  | (sb, lc, bc, di) :: rest, acc =>
    match zip_eq sb.columns_and_values lc with
    | none => .error .ShapeMismatch
    | some pairs =>
      match numLoop f columns row domain_point pairs 0 with
      | .error e => .error e
      | .ok num =>
        match di.get? row with
        | none => .error .IndexOutOfRange
        | some dinv => rowAccum f columns row domain_point rest (acc * bc + num * dinv)

/-- `accumulate_row_quotients`: the per-row accumulation over all sample
batches and their precomputed constants. -/
def accumulate_row_quotients {B K : Type} [CommRing K] (f : B → K)
    (sample_batches : List (ColumnSampleBatch K)) (columns : List (List B))
    (qc : QuotientConstants K) (row : ℕ) (domain_point : CirclePoint B) :
    Except QErr K :=
  rowAccum f columns row domain_point
    (zip4 sample_batches qc.line_coeffs qc.batch_random_coeffs qc.denominator_inverses) 0

/-- Sequential row loop writing one output value per row (the source fills a
zero-initialized buffer in row order; a panic aborts the loop). -/
def collectRows {α : Type} (g : ℕ → Except QErr α) : List ℕ → Except QErr (List α)
  | [] => .ok []
  | r :: rest => do
    let v ← g r
    let vs ← collectRows g rest
    pure (v :: vs)

/-- `accumulate_quotients` (the `QuotientOps` impl for `CPUBackend`):
precompute the constants once, then for each row `r` evaluate the row
accumulator at the domain point of index `bit_reverse_index r` and return the
domain paired with the output buffer. -/
def accumulate_quotients {B K : Type} [CommRing K] [DecidableEq K] (f : B → K)
    (conj finv : K → K)
    (pair_vanishing : CirclePoint K → CirclePoint K → CirclePoint K → K)
    (domain : CircleDomain B) (columns : List (List B)) (random_coeff : K)
    (sample_batches : List (ColumnSampleBatch K)) :
    Except QErr (CircleDomain B × List K) := do
  let qc ← quotient_constants f conj finv pair_vanishing sample_batches random_coeff domain
  let vals ← collectRows
    (fun row => accumulate_row_quotients f sample_batches columns qc row
      (domain.pts (bit_reverse_index row domain.logSize)))
    (List.range domain.size)
  pure (domain, vals)

/-- The raw value `columns[column_index][row]`, coerced into the secure field
(zero when out of range, a case the `Except` embedding rules out
separately). -/
def columnValue {B K : Type} [CommRing K] (f : B → K) (columns : List (List B))
    (ci row : ℕ) : K :=
  match (columns.get? ci).bind fun col => col.get? row with
  | some v => f v
  | none => 0

/-- The numerator of one batch at one row, as the specification words it: the
sum over the batch's (column index, value) claims, zipped with the batch's
line coefficients `(a, b, c)`, of
`columns[column_index][row] * c - (a * point.y + b)`. -/
def specNumerator {B K : Type} [CommRing K] (f : B → K) (columns : List (List B))
    (row : ℕ) (domain_point : CirclePoint B) (cav : List (ℕ × K))
    (lc : List (K × K × K)) : K :=
  (cav.zip lc).foldl
    (fun nu y => nu + (columnValue f columns y.1.1 row * y.2.2.2 -
      (y.2.1 * f domain_point.y + y.2.2.1))) 0

/-- The row accumulator as the specification words it: starting from zero,
for each batch in list order the accumulator becomes
`accumulator * batch_coeff + numerator * denominator_inverse[row]`. -/
def specRowValue {B K : Type} [CommRing K] (f : B → K)
    (sample_batches : List (ColumnSampleBatch K)) (columns : List (List B))
    (qc : QuotientConstants K) (row : ℕ) (domain_point : CirclePoint B) : K :=
  (zip4 sample_batches qc.line_coeffs qc.batch_random_coeffs qc.denominator_inverses).foldl
    (fun acc x => acc * x.2.2.1 +
      specNumerator f columns row domain_point x.1.columns_and_values x.2.1 *
        x.2.2.2.getD row 0)
    0

instance : Fact (Nat.Prime 5) := ⟨by norm_num⟩

/-- Concrete instantiation of the secure field for executable checks:
`ZMod 5`, with the inversion capability realized by cubing (Fermat's little
theorem, since `x ^ 3 = x ^ (5 - 2)`). -/
def exInv (x : ZMod 5) : ZMod 5 := x ^ 3

/-- Concrete conjugation instance for executable checks: negation. -/
def exConj (x : ZMod 5) : ZMod 5 := -x

/-- Concrete pair-vanishing instance for executable checks: the line through
the two excluded points, which vanishes at both of them. -/
def exPV (e₀ e₁ p : CirclePoint (ZMod 5)) : ZMod 5 :=
  (e₀.y - e₁.y) * p.x + (e₁.x - e₀.x) * p.y + (e₀.x * e₁.y - e₀.y * e₁.x)

/-- A one-point domain for executable checks. -/
def exDomain0 : CircleDomain (ZMod 5) := ⟨0, fun _ => ⟨1, 0⟩⟩

/-- A four-point (log-size 2) domain for executable checks. -/
def exDomain2 : CircleDomain (ZMod 5) := ⟨2, fun _ => ⟨1, 1⟩⟩

/-- A single-claim batch for executable checks. -/
def exBatch1 : ColumnSampleBatch (ZMod 5) := ⟨⟨2, 1⟩, [(0, 2)]⟩

/-- A second single-claim batch for executable checks. -/
def exBatch2 : ColumnSampleBatch (ZMod 5) := ⟨⟨1, 3⟩, [(0, 4)]⟩

/-- A two-claim batch for executable checks. -/
def exBatch4 : ColumnSampleBatch (ZMod 5) := ⟨⟨2, 1⟩, [(0, 2), (1, 4)]⟩

/-- A batch referencing column 0 (used against an empty column list). -/
def exBatchBad : ColumnSampleBatch (ZMod 5) := ⟨⟨2, 1⟩, [(0, 1)]⟩

/-- A batch whose pair-vanishing line hits the point of `exDomain2`. -/
def exBatchZero : ColumnSampleBatch (ZMod 5) := ⟨⟨2, 2⟩, [(0, 1)]⟩

/-- An empty batch whose denominators are nonzero on `exDomain0`. -/
def exBatchEmpty : ColumnSampleBatch (ZMod 5) := ⟨⟨2, 1⟩, []⟩

/-- An empty batch whose point coincides with the single point of
`exDomain0`, so its pair-vanishing denominator is zero there. -/
def exBatchEmptyZero : ColumnSampleBatch (ZMod 5) := ⟨⟨1, 0⟩, []⟩

/-! ### Supporting lemmas -/

theorem foldl_mul_shift {K : Type} [CommRing K] (l : List K) :
    ∀ a : K, l.foldl (· * ·) a = a * prodL l := by
  induction l with
  | nil => intro a; simp [prodL]
  | cons x xs ih =>
    intro a
    have h1 : (x :: xs).foldl (· * ·) a = xs.foldl (· * ·) (a * x) := rfl
    have h2 : prodL (x :: xs) = xs.foldl (· * ·) (1 * x) := rfl
    rw [h1, ih (a * x), h2, ih (1 * x)]
    ring

theorem prodL_cons {K : Type} [CommRing K] (x : K) (xs : List K) :
    prodL (x :: xs) = x * prodL xs := by
  show (x :: xs).foldl (· * ·) 1 = x * prodL xs
  rw [List.foldl_cons, foldl_mul_shift]
  ring

theorem prodL_ne_zero {K : Type} [CommRing K] [IsDomain K] (l : List K)
    (h : ∀ x ∈ l, x ≠ 0) : prodL l ≠ 0 := by
  induction l with
  | nil => simp [prodL]
  | cons x xs ih =>
    rw [prodL_cons]
    exact mul_ne_zero (h x (List.mem_cons_self x xs))
      (ih fun y hy => h y (List.mem_cons_of_mem x hy))

theorem mul_inv_unique {K : Type} [CommRing K] {x u v : K}
    (h1 : x * u = 1) (h2 : x * v = 1) : u = v := by
  calc u = u * (x * v) := by rw [h2]; ring
  _ = v * (x * u) := by ring
  _ = v := by rw [h1]; ring

theorem invertAux_map {K : Type} [CommRing K] (finv : K → K)
    (hinv : ∀ y : K, y ≠ 0 → y * finv y = 1) (l : List K) :
    ∀ (pre T : K), (∀ x ∈ l, x ≠ 0) → pre * prodL l = T → T ≠ 0 →
      invertAux (finv T) pre l = l.map finv := by
  induction l with
  | nil => intro pre T _ _ _; simp [invertAux]
  | cons x xs ih =>
    intro pre T hnz hT hT0
    have hx : x ≠ 0 := hnz x (List.mem_cons_self x xs)
    have hT' : pre * x * prodL xs = T := by rw [← hT, prodL_cons]; ring
    have hhead : x * (pre * prodL xs * finv T) = 1 := by
      have : x * (pre * prodL xs * finv T) = (pre * x * prodL xs) * finv T := by ring
      rw [this, hT']
      exact hinv T hT0
    have hfx : pre * prodL xs * finv T = finv x :=
      mul_inv_unique hhead (hinv x hx)
    have hrec : invertAux (finv T) (pre * x) xs = xs.map finv :=
      ih (pre * x) T (fun y hy => hnz y (List.mem_cons_of_mem x hy)) hT' hT0
    show pre * prodL xs * finv T :: invertAux (finv T) (pre * x) xs = finv x :: xs.map finv
    rw [hfx, hrec]

theorem batch_inverse_eq_map {K : Type} [CommRing K] [IsDomain K] [DecidableEq K]
    (finv : K → K) (hinv : ∀ y : K, y ≠ 0 → y * finv y = 1) (l : List K)
    (hnz : ∀ x ∈ l, x ≠ 0) : batch_inverse finv l = some (l.map finv) := by
  rw [batch_inverse, if_pos hnz,
    invertAux_map finv hinv l 1 (prodL l) hnz (one_mul _) (prodL_ne_zero l hnz)]

theorem batch_inverse_some_nonzero {K : Type} [CommRing K] [DecidableEq K]
    (finv : K → K) (l : List K) (r : List K)
    (h : batch_inverse finv l = some r) : ∀ x ∈ l, x ≠ 0 := by
  by_contra hc
  rw [batch_inverse, if_neg hc] at h
  exact Option.noConfusion h

theorem batch_inverse_none_of_zero {K : Type} [CommRing K] [DecidableEq K]
    (finv : K → K) (l : List K) (x : K) (hx : x ∈ l) (hz : x = 0) :
    batch_inverse finv l = none := by
  rw [batch_inverse, if_neg]
  intro hall
  exact hall x hx hz

theorem invertAux_length {K : Type} [CommRing K] (tinv : K) :
    ∀ (pre : K) (l : List K), (invertAux tinv pre l).length = l.length := by
  intro pre l
  induction l generalizing pre with
  | nil => rfl
  | cons x xs ih => simp [invertAux, ih]

theorem chunksExact_flatMap {α β : Type} (n : ℕ) (den : β → List α) :
    ∀ (sb : List β), (∀ b ∈ sb, (den b).length = n) →
      chunksExact n sb.length (sb.flatMap den) = sb.map den := by
  intro sb
  induction sb with
  | nil => intro _; rfl
  | cons b rest ih =>
    intro h
    have hb : (den b).length = n := h b (List.mem_cons_self b rest)
    simp only [List.flatMap_cons, List.length_cons, chunksExact, List.map_cons]
    rw [List.take_left' hb, List.drop_left' hb,
      ih fun y hy => h y (List.mem_cons_of_mem b hy)]

theorem bit_reverse_length {K : Type} [Zero K] (l : List K) (k : ℕ) :
    (bit_reverse l k).length = 2 ^ k := by
  simp [bit_reverse]

theorem batchDenominators_length {B K : Type} (f : B → K) (conj : K → K)
    (pair_vanishing : CirclePoint K → CirclePoint K → CirclePoint K → K)
    (sb : ColumnSampleBatch K) (domain : CircleDomain B) :
    (batchDenominators f conj pair_vanishing sb domain).length = domain.size := by
  simp [batchDenominators]

theorem denominator_inverses_closed_form {B K : Type} [CommRing K] [IsDomain K]
    [DecidableEq K] (f : B → K) (conj finv : K → K)
    (pair_vanishing : CirclePoint K → CirclePoint K → CirclePoint K → K)
    (sample_batches : List (ColumnSampleBatch K)) (domain : CircleDomain B)
    (hinv : ∀ y : K, y ≠ 0 → y * finv y = 1)
    (hnz : ∀ b ∈ sample_batches,
      ∀ x ∈ batchDenominators f conj pair_vanishing b domain, x ≠ 0) :
    denominator_inverses f conj finv pair_vanishing sample_batches domain =
      .ok (sample_batches.map fun b =>
        bit_reverse ((batchDenominators f conj pair_vanishing b domain).map finv)
          domain.logSize) := by
  have hflat : ∀ x ∈ sample_batches.flatMap
      (fun sb => batchDenominators f conj pair_vanishing sb domain), x ≠ 0 := by
    intro x hx
    rcases List.mem_flatMap.mp hx with ⟨b, hb, hxb⟩
    exact hnz b hb x hxb
  simp only [denominator_inverses]
  rw [batch_inverse_eq_map finv hinv _ hflat]
  dsimp only
  rw [List.map_flatMap]
  rw [chunksExact_flatMap domain.size
    (fun b => (batchDenominators f conj pair_vanishing b domain).map finv) sample_batches
    (fun b _ => by
      rw [List.length_map]
      exact batchDenominators_length f conj pair_vanishing b domain)]
  rw [List.map_map]
  rfl

theorem except_bind_ok {ε α β : Type} (x : Except ε α) (g : α → Except ε β) (v : β)
    (h : x >>= g = .ok v) : ∃ w, x = .ok w ∧ g w = .ok v := by
  cases x with
  | error e => simp [Bind.bind, Except.bind] at h
  | ok w => exact ⟨w, rfl, by simpa [Bind.bind, Except.bind] using h⟩

theorem zip_eq_some {α β : Type} (l₁ : List α) (l₂ : List β) (p : List (α × β))
    (h : zip_eq l₁ l₂ = some p) : p = l₁.zip l₂ ∧ l₁.length = l₂.length := by
  rw [zip_eq] at h
  split at h
  · exact ⟨(Option.some.injEq _ _ ▸ h).symm, by assumption⟩
  · exact Option.noConfusion h

theorem zip_eq_of_length {α β : Type} (l₁ : List α) (l₂ : List β)
    (h : l₁.length = l₂.length) : zip_eq l₁ l₂ = some (l₁.zip l₂) := by
  rw [zip_eq, if_pos h]

theorem getD_of_get? {α : Type} (l : List α) (i : ℕ) (x d : α)
    (h : l.get? i = some x) : l.getD i d = x := by
  have hi : i < l.length := List.get?_eq_some.mp h |>.1
  rw [List.getD_eq_getElem l d hi]
  have := List.get?_eq_some.mp h
  rcases this with ⟨hlt, hget⟩
  simpa [List.get_eq_getElem] using hget

theorem numLoop_ok_spec {B K : Type} [CommRing K] (f : B → K)
    (columns : List (List B)) (row : ℕ) (domain_point : CirclePoint B) :
    ∀ (pairs : List ((ℕ × K) × (K × K × K))) (nu v : K),
      numLoop f columns row domain_point pairs nu = .ok v →
      v = pairs.foldl
        (fun nu y => nu + (columnValue f columns y.1.1 row * y.2.2.2 -
          (y.2.1 * f domain_point.y + y.2.2.1))) nu := by
  intro pairs
  induction pairs with
  | nil =>
    intro nu v h
    simp only [numLoop] at h
    cases h
    rfl
  | cons p rest ih =>
    obtain ⟨⟨ci, w⟩, a, b, c⟩ := p
    intro nu v h
    cases hcol : columns.get? ci with
    | none =>
      simp only [numLoop, hcol] at h
      exact Except.noConfusion h
    | some col =>
      cases hv : col.get? row with
      | none =>
        simp only [numLoop, hcol, hv] at h
        exact Except.noConfusion h
      | some vv =>
        simp only [numLoop, hcol, hv] at h
        have harg : columnValue f columns ci row = f vv := by
          rw [columnValue, hcol, Option.some_bind, hv]
        rw [List.foldl_cons]
        have hres := ih (nu + (f vv * c - (a * f domain_point.y + b))) v h
        rw [← harg] at hres
        exact hres

theorem rowAccum_ok_spec {B K : Type} [CommRing K] (f : B → K)
    (columns : List (List B)) (row : ℕ) (domain_point : CirclePoint B) :
    ∀ (zl : List (ColumnSampleBatch K × List (K × K × K) × K × List K)) (acc v : K),
      rowAccum f columns row domain_point zl acc = .ok v →
      v = zl.foldl
        (fun acc x => acc * x.2.2.1 +
          specNumerator f columns row domain_point x.1.columns_and_values x.2.1 *
            x.2.2.2.getD row 0) acc := by
  intro zl
  induction zl with
  | nil =>
    intro acc v h
    simp only [rowAccum] at h
    cases h
    rfl
  | cons q rest ih =>
    obtain ⟨sb, lc, bc, di⟩ := q
    intro acc v h
    cases hz : zip_eq sb.columns_and_values lc with
    | none =>
      simp only [rowAccum, hz] at h
      exact Except.noConfusion h
    | some pairs =>
      cases hn : numLoop f columns row domain_point pairs 0 with
      | error e =>
        simp only [rowAccum, hz, hn] at h
        exact Except.noConfusion h
      | ok num =>
        cases hd : di.get? row with
        | none =>
          simp only [rowAccum, hz, hn, hd] at h
          exact Except.noConfusion h
        | some dinv =>
          simp only [rowAccum, hz, hn, hd] at h
          have hnum : num = specNumerator f columns row domain_point
              sb.columns_and_values lc := by
            have hp := (zip_eq_some _ _ _ hz).1
            rw [specNumerator, ← hp]
            exact numLoop_ok_spec f columns row domain_point pairs 0 num hn
          have hdv : di.getD row 0 = dinv := getD_of_get? di row dinv 0 hd
          rw [List.foldl_cons]
          have hres := ih (acc * bc + num * dinv) v h
          rw [hnum, ← hdv] at hres
          exact hres

theorem collectRows_ok_forall {α : Type} (g : ℕ → Except QErr α) :
    ∀ (l : List ℕ) (vs : List α), collectRows g l = .ok vs →
      List.Forall₂ (fun r v => g r = .ok v) l vs := by
  intro l
  induction l with
  | nil =>
    intro vs h
    simp only [collectRows] at h
    cases h
    exact List.Forall₂.nil
  | cons r rest ih =>
    intro vs h
    simp only [collectRows] at h
    rcases except_bind_ok _ _ _ h with ⟨v, hv, h2⟩
    rcases except_bind_ok _ _ _ h2 with ⟨vs', hvs', h3⟩
    have : v :: vs' = vs := by simpa [pure, Except.pure] using h3
    rw [← this]
    exact List.Forall₂.cons hv (ih vs' hvs')

theorem forall2_getD {α β : Type} (R : α → β → Prop) (l₁ : List α) (l₂ : List β)
    (h : List.Forall₂ R l₁ l₂) :
    ∀ (i : ℕ) (d₁ : α) (d₂ : β), i < l₁.length → R (l₁.getD i d₁) (l₂.getD i d₂) := by
  induction h with
  | nil => intro i d₁ d₂ hi; exact absurd hi (by simp)
  | cons hab hrest ih =>
    intro i d₁ d₂ hi
    cases i with
    | zero => exact hab
    | succ j => exact ih j d₁ d₂ (by simpa using hi)

theorem collectRows_range_get {α : Type} (g : ℕ → Except QErr α) (n : ℕ)
    (vs : List α) (d : α) (h : collectRows g (List.range n) = .ok vs) :
    vs.length = n ∧ ∀ r, r < n → g r = .ok (vs.getD r d) := by
  have hf := collectRows_ok_forall g (List.range n) vs h
  have hlen : vs.length = n := by
    have := hf.length_eq
    simpa using this.symm
  refine ⟨hlen, fun r hr => ?_⟩
  have hget := forall2_getD _ _ _ hf r 0 d (by simpa)
  have hrr : (List.range n).get? r = some r := by
    simp [List.get?_eq_getElem?, List.getElem?_range hr]
  have hrange : (List.range n).getD r 0 = r := getD_of_get? _ _ _ _ hrr
  rwa [hrange] at hget

/-! ### C1: orchestration and the row accumulator -/

/-- C1: a successful `accumulate_quotients` call returns the input domain
paired with a buffer of `domain.size()` values, where position `r` is the
row accumulator's value at the domain point of index
`bit_reverse_index r log_size`, the row accumulator being the fold that
starts from zero and, per batch, adds the batch numerator times the
denominator inverse of the row onto `accumulator * batch_coeff`. -/
theorem C1_orchestration {B K : Type} [CommRing K] [DecidableEq K] (f : B → K)
    (conj finv : K → K)
    (pair_vanishing : CirclePoint K → CirclePoint K → CirclePoint K → K)
    (domain : CircleDomain B) (columns : List (List B)) (random_coeff : K)
    (sample_batches : List (ColumnSampleBatch K)) (d : CircleDomain B) (vals : List K)
    (h : accumulate_quotients f conj finv pair_vanishing domain columns random_coeff
      sample_batches = .ok (d, vals)) :
    d = domain ∧ vals.length = domain.size ∧
    ∃ qc, quotient_constants f conj finv pair_vanishing sample_batches random_coeff
        domain = .ok qc ∧
      ∀ r, r < domain.size →
        accumulate_row_quotients f sample_batches columns qc r
            (domain.pts (bit_reverse_index r domain.logSize)) = .ok (vals.getD r 0) ∧
        vals.getD r 0 = specRowValue f sample_batches columns qc r
            (domain.pts (bit_reverse_index r domain.logSize)) := by
  rw [accumulate_quotients] at h
  rcases except_bind_ok _ _ _ h with ⟨qc, hqc, h2⟩
  rcases except_bind_ok _ _ _ h2 with ⟨vs, hvs, h3⟩
  have hpair : (domain, vs) = (d, vals) := by simpa [pure, Except.pure] using h3
  have hd : d = domain := (Prod.mk.injEq _ _ _ _ ▸ hpair).1.symm
  have hvals : vs = vals := (Prod.mk.injEq _ _ _ _ ▸ hpair).2
  rw [hvals] at hvs
  rcases collectRows_range_get _ domain.size vals (0 : K) hvs with ⟨hlen, hrow⟩
  refine ⟨hd, hlen, qc, hqc, fun r hr => ?_⟩
  have hok := hrow r hr
  refine ⟨hok, ?_⟩
  exact rowAccum_ok_spec f columns r _ _ 0 _ hok

/-! ### Further supporting lemmas -/

theorem getD_map {α β : Type} (g : α → β) :
    ∀ (l : List α) (i : ℕ) (d : α) (d' : β), i < l.length →
      (l.map g).getD i d' = g (l.getD i d) := by
  intro l
  induction l with
  | nil => intro i d d' h; exact absurd h (by simp)
  | cons x xs ih =>
    intro i d d' h
    cases i with
    | zero => rfl
    | succ j => exact ih j d d' (by simpa using h)

theorem getD_mem {α : Type} (l : List α) (i : ℕ) (d : α) (h : i < l.length) :
    l.getD i d ∈ l := by
  rw [List.getD_eq_getElem l d h]
  exact List.getElem_mem h

theorem chunksExact_length {α : Type} (n : ℕ) :
    ∀ (cnt : ℕ) (l : List α), (chunksExact n cnt l).length = cnt := by
  intro cnt
  induction cnt with
  | zero => intro l; rfl
  | succ m ih => intro l; simp [chunksExact, ih]

theorem lineCoeffsAux_length {K : Type} [CommRing K] (conj finv : K → K)
    (point : CirclePoint K) (random_coeff : K) :
    ∀ (alpha : K) (vals : List K),
      (lineCoeffsAux conj finv point random_coeff alpha vals).length = vals.length := by
  intro alpha vals
  induction vals generalizing alpha with
  | nil => rfl
  | cons v vs ih => simp [lineCoeffsAux, ih]

theorem lineCoeffsAux_getD {K : Type} [CommRing K] (conj finv : K → K)
    (point : CirclePoint K) (random_coeff : K) :
    ∀ (vals : List K) (alpha : K) (i : ℕ), i < vals.length →
      (lineCoeffsAux conj finv point random_coeff alpha vals).getD i (0, 0, 0) =
        complex_conjugate_line_coeffs conj finv point (vals.getD i 0)
          (alpha * random_coeff ^ (i + 1)) := by
  intro vals
  induction vals with
  | nil => intro alpha i h; exact absurd h (by simp)
  | cons v vs ih =>
    intro alpha i h
    cases i with
    | zero =>
      show complex_conjugate_line_coeffs conj finv point v (alpha * random_coeff) =
        complex_conjugate_line_coeffs conj finv point v (alpha * random_coeff ^ 1)
      rw [pow_one]
    | succ j =>
      show (lineCoeffsAux conj finv point random_coeff (alpha * random_coeff) vs).getD j
          (0, 0, 0) = _
      rw [ih (alpha * random_coeff) j (by simpa using h)]
      have harg : alpha * random_coeff * random_coeff ^ (j + 1) =
          alpha * random_coeff ^ (j + 1 + 1) := by
        rw [pow_succ]
        ring
      rw [harg]
      rfl

theorem collectRows_congr {α : Type} (g g' : ℕ → Except QErr α) :
    ∀ (l : List ℕ), (∀ r ∈ l, g r = g' r) → collectRows g l = collectRows g' l := by
  intro l
  induction l with
  | nil => intro _; rfl
  | cons r rest ih =>
    intro h
    simp only [collectRows]
    rw [h r (List.mem_cons_self r rest), ih fun y hy => h y (List.mem_cons_of_mem r hy)]

theorem collectRows_const {α : Type} (c : α) :
    ∀ (l : List ℕ), collectRows (fun _ => Except.ok c) l = .ok (List.replicate l.length c) := by
  intro l
  induction l with
  | nil => rfl
  | cons r rest ih =>
    simp only [collectRows, Bind.bind, Except.bind, ih, List.length_cons,
      List.replicate_succ]
    rfl

theorem numLoop_kind {B K : Type} [CommRing K] (f : B → K) (columns : List (List B))
    (row : ℕ) (domain_point : CirclePoint B) :
    ∀ (pairs : List ((ℕ × K) × (K × K × K))) (nu : K),
      (∃ v, numLoop f columns row domain_point pairs nu = .ok v) ∨
        numLoop f columns row domain_point pairs nu = .error .IndexOutOfRange := by
  intro pairs
  induction pairs with
  | nil => intro nu; exact Or.inl ⟨nu, rfl⟩
  | cons p rest ih =>
    obtain ⟨⟨ci, w⟩, a, b, c⟩ := p
    intro nu
    cases hcol : columns.get? ci with
    | none => right; simp only [numLoop, hcol]
    | some col =>
      cases hv : col.get? row with
      | none => right; simp only [numLoop, hcol, hv]
      | some vv =>
        have := ih (nu + (f vv * c - (a * f domain_point.y + b)))
        simpa only [numLoop, hcol, hv] using this

theorem rowAccum_ne_SM {B K : Type} [CommRing K] (f : B → K) (columns : List (List B))
    (row : ℕ) (domain_point : CirclePoint B) :
    ∀ (sbl : List (ColumnSampleBatch K)) (lcl : List (List (K × K × K)))
      (bcl : List K) (dil : List (List K)) (acc : K),
      (∀ j, j < sbl.length →
        (sbl.getD j default).columns_and_values.length = (lcl.getD j []).length) →
      rowAccum f columns row domain_point (zip4 sbl lcl bcl dil) acc ≠
        .error .ShapeMismatch := by
  intro sbl
  induction sbl with
  | nil => intro lcl bcl dil acc _; simp [zip4, rowAccum]
  | cons sb rest ih =>
    intro lcl bcl dil acc hlen
    cases lcl with
    | nil => simp [zip4, rowAccum]
    | cons lc lcrest =>
      cases bcl with
      | nil => simp [zip4, rowAccum]
      | cons bc bcrest =>
        cases dil with
        | nil => simp [zip4, rowAccum]
        | cons di direst =>
          have hz : zip_eq sb.columns_and_values lc =
              some (sb.columns_and_values.zip lc) :=
            zip_eq_of_length _ _ (hlen 0 (by simp))
          rcases numLoop_kind f columns row domain_point
              (sb.columns_and_values.zip lc) 0 with ⟨num, hn⟩ | hn
          · cases hd : di.get? row with
            | none =>
              simp only [zip4, rowAccum, hz, hn, hd]
              intro hcon
              exact QErr.noConfusion (Except.error.inj hcon)
            | some dinv =>
              simp only [zip4, rowAccum, hz, hn, hd]
              exact ih lcrest bcrest direst (acc * bc + num * dinv)
                fun j hj => hlen (j + 1) (by simpa using hj)
          · simp only [zip4, rowAccum, hz, hn]
            intro hcon
            exact QErr.noConfusion (Except.error.inj hcon)

/-! ### C3, C4, C5, C6, C7, C9 -/

/-- C3: under the guaranteed absence of zero denominators, the denominator
precomputation — which concatenates, for each batch and every row in natural
order, the pair-vanishing value of the batch point and its conjugate at the
row's domain point lifted to the extension field, inverts the flat sequence
in one batched pass, then splits it back into per-batch segments of
`domain.size()` entries and bit-reverses each — returns, per batch, the
bit-reversed sequence of row-wise inverted denominators. -/
theorem C3_denominator_pipeline {B K : Type} [CommRing K] [IsDomain K] [DecidableEq K]
    (f : B → K) (conj finv : K → K)
    (pair_vanishing : CirclePoint K → CirclePoint K → CirclePoint K → K)
    (sample_batches : List (ColumnSampleBatch K)) (domain : CircleDomain B)
    (hinv : ∀ y : K, y ≠ 0 → y * finv y = 1)
    (hnz : ∀ b ∈ sample_batches, ∀ r, r < domain.size →
      pair_vanishing b.point (point_conjugate conj b.point)
        (into_ef f (domain.pts r)) ≠ 0) :
    denominator_inverses f conj finv pair_vanishing sample_batches domain =
      .ok (sample_batches.map fun b =>
        bit_reverse ((List.range domain.size).map fun r =>
          finv (pair_vanishing b.point (point_conjugate conj b.point)
            (into_ef f (domain.pts r)))) domain.logSize) := by
  have hnz' : ∀ b ∈ sample_batches,
      ∀ x ∈ batchDenominators f conj pair_vanishing b domain, x ≠ 0 := by
    intro b hb x hx
    rcases List.mem_map.mp hx with ⟨r, hr, hxr⟩
    rw [← hxr]
    exact hnz b hb r (by simpa using hr)
  rw [denominator_inverses_closed_form f conj finv pair_vanishing sample_batches
    domain hinv hnz']
  simp only [batchDenominators, List.map_map]
  rfl

/-- C4: the i-th (0-based) line-coefficient triple of a batch is derived with
the running weight `alpha = random_coeff ^ (i + 1)`; its third component is
that weight, and `a * y + b` passes through `(point.y, value)` and
`(conj point.y, conj value)` whenever those two y-coordinates differ. -/
theorem C4_line_coefficients {K : Type} [CommRing K] (conj finv : K → K)
    (hinv : ∀ y : K, y ≠ 0 → y * finv y = 1)
    (sample_batches : List (ColumnSampleBatch K)) (random_coeff : K) (bi i : ℕ)
    (hbi : bi < sample_batches.length)
    (hi : i < (sample_batches.getD bi default).columns_and_values.length)
    (hy : conj (sample_batches.getD bi default).point.y ≠
      (sample_batches.getD bi default).point.y) :
    (((column_line_coeffs conj finv sample_batches random_coeff).getD bi []).getD i
        (0, 0, 0)).2.2 = random_coeff ^ (i + 1) ∧
    (((column_line_coeffs conj finv sample_batches random_coeff).getD bi []).getD i
          (0, 0, 0)).1 * (sample_batches.getD bi default).point.y +
        (((column_line_coeffs conj finv sample_batches random_coeff).getD bi []).getD i
          (0, 0, 0)).2.1 =
      ((sample_batches.getD bi default).columns_and_values.getD i (0, 0)).2 ∧
    (((column_line_coeffs conj finv sample_batches random_coeff).getD bi []).getD i
          (0, 0, 0)).1 * conj (sample_batches.getD bi default).point.y +
        (((column_line_coeffs conj finv sample_batches random_coeff).getD bi []).getD i
          (0, 0, 0)).2.1 =
      conj ((sample_batches.getD bi default).columns_and_values.getD i (0, 0)).2 := by
  have h1 : (column_line_coeffs conj finv sample_batches random_coeff).getD bi [] =
      lineCoeffsAux conj finv (sample_batches.getD bi default).point random_coeff 1
        ((sample_batches.getD bi default).columns_and_values.map Prod.snd) := by
    rw [column_line_coeffs]
    exact getD_map _ sample_batches bi default [] hbi
  have h2 : ((sample_batches.getD bi default).columns_and_values.map Prod.snd).getD i 0 =
      ((sample_batches.getD bi default).columns_and_values.getD i (0, 0)).2 :=
    getD_map Prod.snd _ i (0, 0) 0 hi
  have h3 := lineCoeffsAux_getD conj finv (sample_batches.getD bi default).point
    random_coeff ((sample_batches.getD bi default).columns_and_values.map Prod.snd) 1 i
    (by simpa using hi)
  rw [h1, h3, h2, one_mul]
  have hd1 : (conj (sample_batches.getD bi default).point.y -
        (sample_batches.getD bi default).point.y) *
      finv (conj (sample_batches.getD bi default).point.y -
        (sample_batches.getD bi default).point.y) = 1 :=
    hinv _ (sub_ne_zero_of_ne hy)
  refine ⟨rfl, ?_, ?_⟩
  · simp only [complex_conjugate_line_coeffs]
    ring
  · simp only [complex_conjugate_line_coeffs]
    linear_combination
      (conj ((sample_batches.getD bi default).columns_and_values.getD i (0, 0)).2 -
        ((sample_batches.getD bi default).columns_and_values.getD i (0, 0)).2) * hd1

/-- C5: the batch random coefficients are, in batch order, the random
challenge raised to the number of (column, value) pairs of each batch. -/
theorem C5_batch_random_coefficients {K : Type} [CommRing K]
    (sample_batches : List (ColumnSampleBatch K)) (random_coeff : K) :
    (batch_random_coeffs sample_batches random_coeff).length = sample_batches.length ∧
    ∀ i, i < sample_batches.length →
      (batch_random_coeffs sample_batches random_coeff).getD i 0 =
        random_coeff ^ (sample_batches.getD i default).columns_and_values.length := by
  constructor
  · simp [batch_random_coeffs]
  · intro i hi
    rw [batch_random_coeffs]
    exact getD_map _ sample_batches i default 0 hi

theorem zero_denominator_aborts {B K : Type} [CommRing K] [DecidableEq K]
    (f : B → K) (conj finv : K → K)
    (pair_vanishing : CirclePoint K → CirclePoint K → CirclePoint K → K)
    (domain : CircleDomain B) (columns : List (List B)) (random_coeff : K)
    (sample_batches : List (ColumnSampleBatch K)) (b : ColumnSampleBatch K) (r : ℕ)
    (hb : b ∈ sample_batches) (hr : r < domain.size)
    (hz : pair_vanishing b.point (point_conjugate conj b.point)
      (into_ef f (domain.pts r)) = 0) :
    quotient_constants f conj finv pair_vanishing sample_batches random_coeff domain =
      .error .InvalidSample ∧
    accumulate_quotients f conj finv pair_vanishing domain columns random_coeff
      sample_batches = .error .InvalidSample := by
  have hmem : pair_vanishing b.point (point_conjugate conj b.point)
      (into_ef f (domain.pts r)) ∈
      sample_batches.flatMap fun sb => batchDenominators f conj pair_vanishing sb domain := by
    apply List.mem_flatMap.mpr
    refine ⟨b, hb, ?_⟩
    rw [batchDenominators]
    exact List.mem_map.mpr ⟨r, by simpa using hr, rfl⟩
  have hdi : denominator_inverses f conj finv pair_vanishing sample_batches domain =
      .error .InvalidSample := by
    simp only [denominator_inverses]
    rw [batch_inverse_none_of_zero finv _ _ hmem hz]
  have hqc : quotient_constants f conj finv pair_vanishing sample_batches random_coeff
      domain = .error .InvalidSample := by
    rw [quotient_constants, hdi]
    rfl
  exact ⟨hqc, by rw [accumulate_quotients, hqc]; rfl⟩

/-- C6: a denominator that evaluates to exactly zero (the domain point
collides with the sample point or its conjugate) makes the precomputation,
and hence the whole call, abort with `InvalidSample`. -/
theorem C6_zero_denominator_aborts {B K : Type} [CommRing K] [DecidableEq K]
    (f : B → K) (conj finv : K → K)
    (pair_vanishing : CirclePoint K → CirclePoint K → CirclePoint K → K)
    (domain : CircleDomain B) (columns : List (List B)) (random_coeff : K)
    (sample_batches : List (ColumnSampleBatch K)) (b : ColumnSampleBatch K) (r : ℕ)
    (hb : b ∈ sample_batches) (hr : r < domain.size)
    (hz : pair_vanishing b.point (point_conjugate conj b.point)
      (into_ef f (domain.pts r)) = 0) :
    quotient_constants f conj finv pair_vanishing sample_batches random_coeff domain =
      .error .InvalidSample ∧
    accumulate_quotients f conj finv pair_vanishing domain columns random_coeff
      sample_batches = .error .InvalidSample :=
  zero_denominator_aborts f conj finv pair_vanishing domain columns random_coeff
    sample_batches b r hb hr hz

theorem quotient_constants_shape {B K : Type} [CommRing K] [DecidableEq K] (f : B → K)
    (conj finv : K → K)
    (pair_vanishing : CirclePoint K → CirclePoint K → CirclePoint K → K)
    (sample_batches : List (ColumnSampleBatch K)) (random_coeff : K)
    (domain : CircleDomain B) (qc : QuotientConstants K)
    (hq : quotient_constants f conj finv pair_vanishing sample_batches random_coeff
      domain = .ok qc) :
    qc.line_coeffs.length = sample_batches.length ∧
    qc.batch_random_coeffs.length = sample_batches.length ∧
    qc.denominator_inverses.length = sample_batches.length ∧
    (∀ i, i < sample_batches.length →
      (qc.line_coeffs.getD i []).length =
        (sample_batches.getD i default).columns_and_values.length ∧
      (qc.denominator_inverses.getD i []).length = domain.size) ∧
    ∀ (columns : List (List B)) (row : ℕ) (pt : CirclePoint B),
      accumulate_row_quotients f sample_batches columns qc row pt ≠
        .error .ShapeMismatch := by
  rw [quotient_constants] at hq
  rcases except_bind_ok _ _ _ hq with ⟨di0, hdi, hpure⟩
  have hqc : qc = ⟨column_line_coeffs conj finv sample_batches random_coeff,
      batch_random_coeffs sample_batches random_coeff, di0⟩ := by
    have := hpure
    simp only [pure, Except.pure] at this
    exact (Except.ok.inj this).symm
  have hdi0 : ∃ invs, di0 = (chunksExact domain.size sample_batches.length invs).map
      fun seg => bit_reverse seg domain.logSize := by
    simp only [denominator_inverses] at hdi
    cases hbi : batch_inverse finv (sample_batches.flatMap fun sb =>
        batchDenominators f conj pair_vanishing sb domain) with
    | none => rw [hbi] at hdi; exact Except.noConfusion hdi
    | some invs =>
      rw [hbi] at hdi
      exact ⟨invs, (Except.ok.inj hdi).symm⟩
  rcases hdi0 with ⟨invs, hinvs⟩
  have hdilen : di0.length = sample_batches.length := by
    rw [hinvs, List.length_map, chunksExact_length]
  have hlc : ∀ i, i < sample_batches.length →
      (qc.line_coeffs.getD i []).length =
        (sample_batches.getD i default).columns_and_values.length := by
    intro i hi
    rw [hqc]
    show ((column_line_coeffs conj finv sample_batches random_coeff).getD i []).length = _
    rw [column_line_coeffs, getD_map _ sample_batches i default [] hi,
      lineCoeffsAux_length, List.length_map]
  have hdl : ∀ i, i < sample_batches.length →
      (qc.denominator_inverses.getD i []).length = domain.size := by
    intro i hi
    rw [hqc]
    show (di0.getD i []).length = domain.size
    rw [hinvs, getD_map _ _ i [] []
      (by rw [chunksExact_length]; exact hi), bit_reverse_length]
    rfl
  refine ⟨by rw [hqc]; simp [column_line_coeffs],
    by rw [hqc]; simp [batch_random_coeffs],
    by rw [hqc]; exact hdilen,
    fun i hi => ⟨hlc i hi, hdl i hi⟩,
    fun columns row pt => ?_⟩
  rw [accumulate_row_quotients]
  apply rowAccum_ne_SM
  intro j hj
  exact (hlc j hj).symm

/-- C7: the constants produced by a successful precomputation have one line
coefficient per claim of each batch and one denominator inverse per row, so
the length-checked pairing in the row accumulator can never raise
`ShapeMismatch`. -/
theorem C7_constants_shape {B K : Type} [CommRing K] [DecidableEq K] (f : B → K)
    (conj finv : K → K)
    (pair_vanishing : CirclePoint K → CirclePoint K → CirclePoint K → K)
    (sample_batches : List (ColumnSampleBatch K)) (random_coeff : K)
    (domain : CircleDomain B) (qc : QuotientConstants K)
    (hq : quotient_constants f conj finv pair_vanishing sample_batches random_coeff
      domain = .ok qc) :
    qc.line_coeffs.length = sample_batches.length ∧
    qc.batch_random_coeffs.length = sample_batches.length ∧
    qc.denominator_inverses.length = sample_batches.length ∧
    (∀ i, i < sample_batches.length →
      (qc.line_coeffs.getD i []).length =
        (sample_batches.getD i default).columns_and_values.length ∧
      (qc.denominator_inverses.getD i []).length = domain.size) ∧
    ∀ (columns : List (List B)) (row : ℕ) (pt : CirclePoint B),
      accumulate_row_quotients f sample_batches columns qc row pt ≠
        .error .ShapeMismatch :=
  quotient_constants_shape f conj finv pair_vanishing sample_batches random_coeff
    domain qc hq

/-- C9: with an empty `sample_batches` list the call succeeds and returns the
domain paired with the all-zero buffer of `domain.size()` entries. -/
theorem C9_empty_sample_batches {B K : Type} [CommRing K] [DecidableEq K] (f : B → K)
    (conj finv : K → K)
    (pair_vanishing : CirclePoint K → CirclePoint K → CirclePoint K → K)
    (domain : CircleDomain B) (columns : List (List B)) (random_coeff : K)
    (_hne : columns ≠ []) :
    accumulate_quotients f conj finv pair_vanishing domain columns random_coeff [] =
      .ok (domain, List.replicate domain.size 0) := by
  have hqc : quotient_constants f conj finv pair_vanishing [] random_coeff domain =
      .ok ⟨[], [], []⟩ := rfl
  have hrow : ∀ r ∈ List.range domain.size,
      accumulate_row_quotients f [] columns ⟨[], [], []⟩ r
        (domain.pts (bit_reverse_index r domain.logSize)) = Except.ok 0 :=
    fun r _ => rfl
  rw [accumulate_quotients, hqc]
  simp only [Bind.bind, Except.bind]
  rw [collectRows_congr _ (fun _ => Except.ok 0) _ hrow, collectRows_const]
  simp only [List.length_range]
  rfl

/-! ### C2: where an out-of-range column index is detected -/

theorem mem_zip_left {α β : Type} :
    ∀ (l₁ : List α) (l₂ : List β) (a : α), a ∈ l₁ → l₁.length = l₂.length →
      ∃ b, (a, b) ∈ l₁.zip l₂ := by
  intro l₁
  induction l₁ with
  | nil => intro l₂ a ha _; exact absurd ha (by simp)
  | cons x xs ih =>
    intro l₂ a ha hlen
    cases l₂ with
    | nil => exact absurd hlen (by simp)
    | cons y ys =>
      rcases List.mem_cons.mp ha with hax | hmem
      · exact ⟨y, by rw [hax]; exact List.mem_cons_self _ _⟩
      · rcases ih ys a hmem (by simpa using hlen) with ⟨b, hb⟩
        exact ⟨b, List.mem_cons_of_mem _ hb⟩

theorem numLoop_bad {B K : Type} [CommRing K] (f : B → K) (columns : List (List B))
    (row : ℕ) (domain_point : CirclePoint B) :
    ∀ (pairs : List ((ℕ × K) × (K × K × K))) (nu : K),
      (∃ q ∈ pairs, columns.get? q.1.1 = none) →
      numLoop f columns row domain_point pairs nu = .error .IndexOutOfRange := by
  intro pairs
  induction pairs with
  | nil => intro nu hex; rcases hex with ⟨q, hq, _⟩; exact absurd hq (by simp)
  | cons p rest ih =>
    obtain ⟨⟨ci, w⟩, a, b, c⟩ := p
    intro nu hex
    cases hcol : columns.get? ci with
    | none => simp only [numLoop, hcol]
    | some col =>
      have hex' : ∃ q ∈ rest, columns.get? q.1.1 = none := by
        rcases hex with ⟨q, hq, hnone⟩
        rcases List.mem_cons.mp hq with hqh | hqt
        · rw [hqh] at hnone
          rw [hnone] at hcol
          exact Option.noConfusion hcol
        · exact ⟨q, hqt, hnone⟩
      cases hv : col.get? row with
      | none => simp only [numLoop, hcol, hv]
      | some vv =>
        simp only [numLoop, hcol, hv]
        exact ih _ hex'

theorem rowAccum_bad_index {B K : Type} [CommRing K] (f : B → K)
    (columns : List (List B)) (row : ℕ) (domain_point : CirclePoint B) :
    ∀ (sbl : List (ColumnSampleBatch K)) (lcl : List (List (K × K × K)))
      (bcl : List K) (dil : List (List K)) (acc : K),
      sbl.length = lcl.length → sbl.length = bcl.length → sbl.length = dil.length →
      (∀ j, j < sbl.length →
        (sbl.getD j default).columns_and_values.length = (lcl.getD j []).length) →
      (∀ j, j < sbl.length → row < (dil.getD j []).length) →
      (∃ j, j < sbl.length ∧
        ∃ p ∈ (sbl.getD j default).columns_and_values, columns.get? p.1 = none) →
      rowAccum f columns row domain_point (zip4 sbl lcl bcl dil) acc =
        .error .IndexOutOfRange := by
  intro sbl
  induction sbl with
  | nil =>
    intro lcl bcl dil acc _ _ _ _ _ hbad
    rcases hbad with ⟨j, hj, _⟩
    exact absurd hj (by simp)
  | cons sb rest ih =>
    intro lcl bcl dil acc hl1 hl2 hl3 hshape hdi hbad
    cases lcl with
    | nil => exact absurd hl1 (by simp)
    | cons lc lcrest =>
      cases bcl with
      | nil => exact absurd hl2 (by simp)
      | cons bc bcrest =>
        cases dil with
        | nil => exact absurd hl3 (by simp)
        | cons di direst =>
          have hz : zip_eq sb.columns_and_values lc =
              some (sb.columns_and_values.zip lc) :=
            zip_eq_of_length _ _ (hshape 0 (by simp))
          rcases hbad with ⟨j, hj, p, hp, hnone⟩
          cases j with
          | zero =>
            have hzipmem : ∃ t, (p, t) ∈ sb.columns_and_values.zip lc :=
              mem_zip_left _ _ p hp (hshape 0 (by simp))
            rcases hzipmem with ⟨t, ht⟩
            have hn : numLoop f columns row domain_point
                (sb.columns_and_values.zip lc) 0 = .error .IndexOutOfRange :=
              numLoop_bad f columns row domain_point _ 0 ⟨(p, t), ht, hnone⟩
            simp only [zip4, rowAccum, hz, hn]
          | succ m =>
            rcases numLoop_kind f columns row domain_point
                (sb.columns_and_values.zip lc) 0 with ⟨num, hn⟩ | hn
            · have hrowlt : row < di.length := hdi 0 (by simp)
              have hd : di.get? row = some (di.get ⟨row, hrowlt⟩) :=
                List.get?_eq_get hrowlt
              simp only [zip4, rowAccum, hz, hn, hd]
              exact ih lcrest bcrest direst _ (by simpa using hl1)
                (by simpa using hl2) (by simpa using hl3)
                (fun k hk => hshape (k + 1) (by simpa using hk))
                (fun k hk => hdi (k + 1) (by simpa using hk))
                ⟨m, by simpa using hj, p, hp, hnone⟩
            · simp only [zip4, rowAccum, hz, hn]

theorem collectRows_head_error {α : Type} (g : ℕ → Except QErr α) (r : ℕ)
    (rest : List ℕ) (e : QErr) (hg : g r = .error e) :
    collectRows g (r :: rest) = .error e := by
  simp only [collectRows, hg]
  rfl

/-- C2 counterexample ingredients are instantiated below; here is the amended
statement: an out-of-range column index is not detected by the
precomputation (which never reads `columns`), but surfaces as
`IndexOutOfRange` when the first row is accumulated, so the call still
returns no output. -/
theorem C2_amended_index_error_in_row_phase {B K : Type} [CommRing K] [DecidableEq K]
    (f : B → K) (conj finv : K → K)
    (pair_vanishing : CirclePoint K → CirclePoint K → CirclePoint K → K)
    (domain : CircleDomain B) (columns : List (List B)) (random_coeff : K)
    (sample_batches : List (ColumnSampleBatch K)) (qc : QuotientConstants K)
    (hq : quotient_constants f conj finv pair_vanishing sample_batches random_coeff
      domain = .ok qc)
    (hbad : ∃ b ∈ sample_batches, ∃ p ∈ b.columns_and_values,
      columns.get? p.1 = none) :
    accumulate_row_quotients f sample_batches columns qc 0
        (domain.pts (bit_reverse_index 0 domain.logSize)) = .error .IndexOutOfRange ∧
    accumulate_quotients f conj finv pair_vanishing domain columns random_coeff
        sample_batches = .error .IndexOutOfRange := by
  rcases quotient_constants_shape f conj finv pair_vanishing sample_batches
    random_coeff domain qc hq with ⟨hlc, hbc, hdc, hper, _⟩
  have hbadidx : ∃ j, j < sample_batches.length ∧
      ∃ p ∈ (sample_batches.getD j default).columns_and_values,
        columns.get? p.1 = none := by
    rcases hbad with ⟨b, hb, p, hp, hnone⟩
    rcases List.mem_iff_get?.mp hb with ⟨j, hj⟩
    have hjlt : j < sample_batches.length := (List.get?_eq_some.mp hj).1
    have hbj : sample_batches.getD j default = b := getD_of_get? _ _ _ _ hj
    exact ⟨j, hjlt, by rw [hbj]; exact ⟨p, hp, hnone⟩⟩
  have hrow0 : accumulate_row_quotients f sample_batches columns qc 0
      (domain.pts (bit_reverse_index 0 domain.logSize)) = .error .IndexOutOfRange := by
    rw [accumulate_row_quotients]
    exact rowAccum_bad_index f columns 0 _ sample_batches qc.line_coeffs
      qc.batch_random_coeffs qc.denominator_inverses 0 hlc.symm hbc.symm hdc.symm
      (fun j hj => (hper j hj).1.symm)
      (fun j hj => by
        rw [(hper j hj).2]
        exact Nat.pos_pow_of_pos domain.logSize (by norm_num))
      hbadidx
  refine ⟨hrow0, ?_⟩
  rw [accumulate_quotients, hq]
  simp only [Bind.bind, Except.bind]
  have hn0 : domain.size = (domain.size - 1) + 1 :=
    (Nat.succ_pred_eq_of_pos (Nat.pos_pow_of_pos domain.logSize (by norm_num))).symm
  rw [hn0, List.range_succ_eq_map]
  rw [collectRows_head_error _ 0 _ .IndexOutOfRange hrow0]

/-! ### C8: batch composition -/

theorem quotient_constants_nonzero_form {B K : Type} [CommRing K] [IsDomain K]
    [DecidableEq K] (f : B → K) (conj finv : K → K)
    (pair_vanishing : CirclePoint K → CirclePoint K → CirclePoint K → K)
    (sample_batches : List (ColumnSampleBatch K)) (random_coeff : K)
    (domain : CircleDomain B)
    (hinv : ∀ y : K, y ≠ 0 → y * finv y = 1)
    (hnz : ∀ b ∈ sample_batches,
      ∀ x ∈ batchDenominators f conj pair_vanishing b domain, x ≠ 0) :
    quotient_constants f conj finv pair_vanishing sample_batches random_coeff domain =
      .ok ⟨column_line_coeffs conj finv sample_batches random_coeff,
        batch_random_coeffs sample_batches random_coeff,
        sample_batches.map fun b =>
          bit_reverse ((batchDenominators f conj pair_vanishing b domain).map finv)
            domain.logSize⟩ := by
  rw [quotient_constants,
    denominator_inverses_closed_form f conj finv pair_vanishing sample_batches
      domain hinv hnz]
  rfl

theorem denominator_inverses_ok_nonzero {B K : Type} [CommRing K] [DecidableEq K]
    (f : B → K) (conj finv : K → K)
    (pair_vanishing : CirclePoint K → CirclePoint K → CirclePoint K → K)
    (sample_batches : List (ColumnSampleBatch K)) (domain : CircleDomain B)
    (d : List (List K))
    (h : denominator_inverses f conj finv pair_vanishing sample_batches domain = .ok d) :
    ∀ b ∈ sample_batches,
      ∀ x ∈ batchDenominators f conj pair_vanishing b domain, x ≠ 0 := by
  intro b hb x hx
  simp only [denominator_inverses] at h
  cases hbi : batch_inverse finv (sample_batches.flatMap fun sb =>
      batchDenominators f conj pair_vanishing sb domain) with
  | none => rw [hbi] at h; exact Except.noConfusion h
  | some invs =>
    exact batch_inverse_some_nonzero finv _ invs hbi x
      (List.mem_flatMap.mpr ⟨b, hb, hx⟩)

theorem accumulate_ok_parts {B K : Type} [CommRing K] [DecidableEq K] (f : B → K)
    (conj finv : K → K)
    (pair_vanishing : CirclePoint K → CirclePoint K → CirclePoint K → K)
    (domain : CircleDomain B) (columns : List (List B)) (random_coeff : K)
    (sample_batches : List (ColumnSampleBatch K)) (d : CircleDomain B) (w : List K)
    (h : accumulate_quotients f conj finv pair_vanishing domain columns random_coeff
      sample_batches = .ok (d, w)) :
    d = domain ∧ ∃ qc,
      quotient_constants f conj finv pair_vanishing sample_batches random_coeff
        domain = .ok qc ∧
      collectRows (fun row => accumulate_row_quotients f sample_batches columns qc row
        (domain.pts (bit_reverse_index row domain.logSize)))
        (List.range domain.size) = .ok w := by
  rw [accumulate_quotients] at h
  rcases except_bind_ok _ _ _ h with ⟨qc, hqc, h2⟩
  rcases except_bind_ok _ _ _ h2 with ⟨vs, hvs, h3⟩
  have hpair : (domain, vs) = (d, w) := by simpa [pure, Except.pure] using h3
  have hd : d = domain := (Prod.mk.injEq _ _ _ _ ▸ hpair).1.symm
  have hw : vs = w := (Prod.mk.injEq _ _ _ _ ▸ hpair).2
  rw [hw] at hvs
  exact ⟨hd, qc, hqc, hvs⟩

theorem rowAccum_singleton_ok {B K : Type} [CommRing K] (f : B → K)
    (columns : List (List B)) (row : ℕ) (pt : CirclePoint B)
    (sb : ColumnSampleBatch K) (lc : List (K × K × K)) (bc : K) (di : List K)
    (acc v : K) (h : rowAccum f columns row pt [(sb, lc, bc, di)] acc = .ok v) :
    ∃ num dinv,
      sb.columns_and_values.length = lc.length ∧
      numLoop f columns row pt (sb.columns_and_values.zip lc) 0 = .ok num ∧
      di.get? row = some dinv ∧ v = acc * bc + num * dinv := by
  cases hz : zip_eq sb.columns_and_values lc with
  | none =>
    simp only [rowAccum, hz] at h
    exact Except.noConfusion h
  | some pairs =>
    rcases zip_eq_some _ _ _ hz with ⟨hp, hlen⟩
    subst hp
    cases hn : numLoop f columns row pt (sb.columns_and_values.zip lc) 0 with
    | error e =>
      simp only [rowAccum, hz, hn] at h
      exact Except.noConfusion h
    | ok num =>
      cases hd : di.get? row with
      | none =>
        simp only [rowAccum, hz, hn, hd] at h
        exact Except.noConfusion h
      | some dinv =>
        simp only [rowAccum, hz, hn, hd] at h
        cases h
        exact ⟨num, dinv, hlen, rfl, rfl, rfl⟩

theorem rowAccum_pair_eval {B K : Type} [CommRing K] (f : B → K)
    (columns : List (List B)) (row : ℕ) (pt : CirclePoint B)
    (sb₁ sb₂ : ColumnSampleBatch K) (lc₁ lc₂ : List (K × K × K)) (bc₁ bc₂ : K)
    (di₁ di₂ : List K) (acc n₁ n₂ d₁ d₂ : K)
    (hz₁ : zip_eq sb₁.columns_and_values lc₁ = some (sb₁.columns_and_values.zip lc₁))
    (hn₁ : numLoop f columns row pt (sb₁.columns_and_values.zip lc₁) 0 = .ok n₁)
    (hd₁ : di₁.get? row = some d₁)
    (hz₂ : zip_eq sb₂.columns_and_values lc₂ = some (sb₂.columns_and_values.zip lc₂))
    (hn₂ : numLoop f columns row pt (sb₂.columns_and_values.zip lc₂) 0 = .ok n₂)
    (hd₂ : di₂.get? row = some d₂) :
    rowAccum f columns row pt [(sb₁, lc₁, bc₁, di₁), (sb₂, lc₂, bc₂, di₂)] acc =
      .ok ((acc * bc₁ + n₁ * d₁) * bc₂ + n₂ * d₂) := by
  simp only [rowAccum, hz₁, hn₁, hd₁, hz₂, hn₂, hd₂]

theorem collectRows_zip_rel {α : Type} (g₁ g₂ g₁₂ : ℕ → Except QErr α)
    (comb : α → α → α) :
    ∀ (l : List ℕ) (w₁ w₂ w₁₂ : List α),
      (∀ r ∈ l, ∀ a b, g₁ r = .ok a → g₂ r = .ok b → g₁₂ r = .ok (comb a b)) →
      collectRows g₁ l = .ok w₁ → collectRows g₂ l = .ok w₂ →
      collectRows g₁₂ l = .ok w₁₂ → w₁₂ = List.zipWith comb w₁ w₂ := by
  intro l
  induction l with
  | nil =>
    intro w₁ w₂ w₁₂ _ h₁ h₂ h₁₂
    simp only [collectRows] at h₁ h₂ h₁₂
    cases h₁
    cases h₂
    cases h₁₂
    rfl
  | cons r rest ih =>
    intro w₁ w₂ w₁₂ hrel h₁ h₂ h₁₂
    simp only [collectRows] at h₁ h₂ h₁₂
    rcases except_bind_ok _ _ _ h₁ with ⟨a, ha, h₁'⟩
    rcases except_bind_ok _ _ _ h₁' with ⟨w₁', hw₁', hp₁⟩
    rcases except_bind_ok _ _ _ h₂ with ⟨b, hb, h₂'⟩
    rcases except_bind_ok _ _ _ h₂' with ⟨w₂', hw₂', hp₂⟩
    rcases except_bind_ok _ _ _ h₁₂ with ⟨c, hc, h₁₂'⟩
    rcases except_bind_ok _ _ _ h₁₂' with ⟨w₁₂', hw₁₂', hp₁₂⟩
    have hw1 : w₁ = a :: w₁' := by
      have := hp₁
      simp only [pure, Except.pure] at this
      exact (Except.ok.inj this).symm
    have hw2 : w₂ = b :: w₂' := by
      have := hp₂
      simp only [pure, Except.pure] at this
      exact (Except.ok.inj this).symm
    have hw12 : w₁₂ = c :: w₁₂' := by
      have := hp₁₂
      simp only [pure, Except.pure] at this
      exact (Except.ok.inj this).symm
    have hcomb : c = comb a b := by
      have := hrel r (List.mem_cons_self r rest) a b ha hb
      rw [hc] at this
      exact Except.ok.inj this
    rw [hw1, hw2, hw12, List.zipWith_cons_cons, hcomb]
    exact congrArg _ (ih w₁' w₂' w₁₂'
      (fun y hy => hrel y (List.mem_cons_of_mem r hy)) hw₁' hw₂' hw₁₂')

/-- C8: for a domain of log-size 2, accumulating two single-column
single-batch claims separately and combining row-wise as
`acc1[r] * random_coeff + acc2[r]` equals accumulating both batches together
in one call, in that order. -/
theorem C8_batch_composition {B K : Type} [CommRing K] [IsDomain K] [DecidableEq K]
    (f : B → K) (conj finv : K → K)
    (pair_vanishing : CirclePoint K → CirclePoint K → CirclePoint K → K)
    (domain : CircleDomain B) (columns : List (List B)) (random_coeff : K)
    (p₁ p₂ : CirclePoint K) (i₁ i₂ : ℕ) (v₁ v₂ : K)
    (hinv : ∀ y : K, y ≠ 0 → y * finv y = 1)
    (_hlog : domain.logSize = 2)
    (d₁ d₂ d₁₂ : CircleDomain B) (w₁ w₂ w₁₂ : List K)
    (h₁ : accumulate_quotients f conj finv pair_vanishing domain columns random_coeff
      [⟨p₁, [(i₁, v₁)]⟩] = .ok (d₁, w₁))
    (h₂ : accumulate_quotients f conj finv pair_vanishing domain columns random_coeff
      [⟨p₂, [(i₂, v₂)]⟩] = .ok (d₂, w₂))
    (h₁₂ : accumulate_quotients f conj finv pair_vanishing domain columns random_coeff
      [⟨p₁, [(i₁, v₁)]⟩, ⟨p₂, [(i₂, v₂)]⟩] = .ok (d₁₂, w₁₂)) :
    w₁₂ = List.zipWith (fun x y => x * random_coeff + y) w₁ w₂ := by
  rcases accumulate_ok_parts f conj finv pair_vanishing domain columns random_coeff
    _ _ _ h₁ with ⟨-, qc₁, hq₁, hcr₁⟩
  rcases accumulate_ok_parts f conj finv pair_vanishing domain columns random_coeff
    _ _ _ h₂ with ⟨-, qc₂, hq₂, hcr₂⟩
  rcases accumulate_ok_parts f conj finv pair_vanishing domain columns random_coeff
    _ _ _ h₁₂ with ⟨-, qc₁₂, hq₁₂, hcr₁₂⟩
  have hnzof : ∀ (sb : List (ColumnSampleBatch K)) (qc : QuotientConstants K),
      quotient_constants f conj finv pair_vanishing sb random_coeff domain = .ok qc →
      ∀ b ∈ sb, ∀ x ∈ batchDenominators f conj pair_vanishing b domain, x ≠ 0 := by
    intro sb qc hq
    rw [quotient_constants] at hq
    rcases except_bind_ok _ _ _ hq with ⟨di0, hdi0, -⟩
    exact denominator_inverses_ok_nonzero f conj finv pair_vanishing sb domain di0 hdi0
  have hqc₁ : qc₁ = ⟨column_line_coeffs conj finv [⟨p₁, [(i₁, v₁)]⟩] random_coeff,
      batch_random_coeffs [⟨p₁, [(i₁, v₁)]⟩] random_coeff,
      [⟨p₁, [(i₁, v₁)]⟩].map fun b =>
        bit_reverse ((batchDenominators f conj pair_vanishing b domain).map finv)
          domain.logSize⟩ :=
    Except.ok.inj (hq₁.symm.trans (quotient_constants_nonzero_form f conj finv
      pair_vanishing _ random_coeff domain hinv (hnzof _ _ hq₁)))
  have hqc₂ : qc₂ = ⟨column_line_coeffs conj finv [⟨p₂, [(i₂, v₂)]⟩] random_coeff,
      batch_random_coeffs [⟨p₂, [(i₂, v₂)]⟩] random_coeff,
      [⟨p₂, [(i₂, v₂)]⟩].map fun b =>
        bit_reverse ((batchDenominators f conj pair_vanishing b domain).map finv)
          domain.logSize⟩ :=
    Except.ok.inj (hq₂.symm.trans (quotient_constants_nonzero_form f conj finv
      pair_vanishing _ random_coeff domain hinv (hnzof _ _ hq₂)))
  have hqc₁₂ : qc₁₂ = ⟨column_line_coeffs conj finv
      [⟨p₁, [(i₁, v₁)]⟩, ⟨p₂, [(i₂, v₂)]⟩] random_coeff,
      batch_random_coeffs [⟨p₁, [(i₁, v₁)]⟩, ⟨p₂, [(i₂, v₂)]⟩] random_coeff,
      [⟨p₁, [(i₁, v₁)]⟩, ⟨p₂, [(i₂, v₂)]⟩].map fun b =>
        bit_reverse ((batchDenominators f conj pair_vanishing b domain).map finv)
          domain.logSize⟩ :=
    Except.ok.inj (hq₁₂.symm.trans (quotient_constants_nonzero_form f conj finv
      pair_vanishing _ random_coeff domain hinv (hnzof _ _ hq₁₂)))
  subst hqc₁ hqc₂ hqc₁₂
  apply collectRows_zip_rel _ _ _ _ (List.range domain.size) w₁ w₂ w₁₂ _ hcr₁ hcr₂ hcr₁₂
  intro r _ a b ha hb
  have ha' : rowAccum f columns r (domain.pts (bit_reverse_index r domain.logSize))
      [(⟨p₁, [(i₁, v₁)]⟩, lineCoeffsAux conj finv p₁ random_coeff 1 [v₁],
        random_coeff ^ 1,
        bit_reverse ((batchDenominators f conj pair_vanishing ⟨p₁, [(i₁, v₁)]⟩
          domain).map finv) domain.logSize)] 0 = .ok a := ha
  have hb' : rowAccum f columns r (domain.pts (bit_reverse_index r domain.logSize))
      [(⟨p₂, [(i₂, v₂)]⟩, lineCoeffsAux conj finv p₂ random_coeff 1 [v₂],
        random_coeff ^ 1,
        bit_reverse ((batchDenominators f conj pair_vanishing ⟨p₂, [(i₂, v₂)]⟩
          domain).map finv) domain.logSize)] 0 = .ok b := hb
  rcases rowAccum_singleton_ok f columns r _ _ _ _ _ _ _ ha' with
    ⟨n₁, dv₁, hlen₁, hn₁, hd₁, hva⟩
  rcases rowAccum_singleton_ok f columns r _ _ _ _ _ _ _ hb' with
    ⟨n₂, dv₂, hlen₂, hn₂, hd₂, hvb⟩
  have hpair := rowAccum_pair_eval f columns r
    (domain.pts (bit_reverse_index r domain.logSize))
    ⟨p₁, [(i₁, v₁)]⟩ ⟨p₂, [(i₂, v₂)]⟩
    (lineCoeffsAux conj finv p₁ random_coeff 1 [v₁])
    (lineCoeffsAux conj finv p₂ random_coeff 1 [v₂])
    (random_coeff ^ 1) (random_coeff ^ 1)
    (bit_reverse ((batchDenominators f conj pair_vanishing ⟨p₁, [(i₁, v₁)]⟩
      domain).map finv) domain.logSize)
    (bit_reverse ((batchDenominators f conj pair_vanishing ⟨p₂, [(i₂, v₂)]⟩
      domain).map finv) domain.logSize)
    0 n₁ n₂ dv₁ dv₂
    (zip_eq_of_length _ _ hlen₁) hn₁ hd₁ (zip_eq_of_length _ _ hlen₂) hn₂ hd₂
  show rowAccum f columns r (domain.pts (bit_reverse_index r domain.logSize)) _ 0 =
    .ok (a * random_coeff + b)
  have hval : (0 * random_coeff ^ 1 + n₁ * dv₁) * random_coeff ^ 1 + n₂ * dv₂ =
      a * random_coeff + b := by
    rw [hva, hvb, pow_one]
    ring
  rw [← hval]
  exact hpair

/-! ### C10: inserting an empty batch -/

theorem zip4_map {α β γ δ : Type} (g₁ : α → β) (g₂ : α → γ) (g₃ : α → δ)
    (q : α → α × β × γ × δ) (hq : ∀ a, q a = (a, g₁ a, g₂ a, g₃ a)) :
    ∀ (l : List α), zip4 l (l.map g₁) (l.map g₂) (l.map g₃) = l.map q := by
  intro l
  induction l with
  | nil => rfl
  | cons x xs ih =>
    simp only [List.map_cons, zip4, ih, hq x]

theorem rowAccum_append {B K : Type} [CommRing K] (f : B → K)
    (columns : List (List B)) (row : ℕ) (pt : CirclePoint B) :
    ∀ (xs ys : List (ColumnSampleBatch K × List (K × K × K) × K × List K)) (acc : K),
      rowAccum f columns row pt (xs ++ ys) acc =
        (rowAccum f columns row pt xs acc) >>= fun acc2 =>
          rowAccum f columns row pt ys acc2 := by
  intro xs
  induction xs with
  | nil => intro ys acc; rfl
  | cons q rest ih =>
    obtain ⟨sb, lc, bc, di⟩ := q
    intro ys acc
    cases hz : zip_eq sb.columns_and_values lc with
    | none => simp only [List.cons_append, rowAccum, hz]; rfl
    | some pairs =>
      cases hn : numLoop f columns row pt pairs 0 with
      | error e => simp only [List.cons_append, rowAccum, hz, hn]; rfl
      | ok num =>
        cases hd : di.get? row with
        | none => simp only [List.cons_append, rowAccum, hz, hn, hd]; rfl
        | some dinv =>
          simp only [List.cons_append, rowAccum, hz, hn, hd]
          exact ih ys (acc * bc + num * dinv)

theorem rowAccum_empty_batch_step {B K : Type} [CommRing K] (f : B → K)
    (columns : List (List B)) (row : ℕ) (pt : CirclePoint B)
    (conj finv : K → K) (random_coeff : K) (E : ColumnSampleBatch K) (di : List K)
    (rest : List (ColumnSampleBatch K × List (K × K × K) × K × List K)) (acc d : K)
    (hE : E.columns_and_values = []) (hd : di.get? row = some d) :
    rowAccum f columns row pt ((E, lineCoeffsAux conj finv E.point random_coeff 1
        (E.columns_and_values.map Prod.snd),
      random_coeff ^ E.columns_and_values.length, di) :: rest) acc =
      rowAccum f columns row pt rest acc := by
  have h1 : zip_eq E.columns_and_values (lineCoeffsAux conj finv E.point random_coeff 1
      (E.columns_and_values.map Prod.snd)) = some [] := by
    rw [hE]
    rfl
  have h2 : numLoop f columns row pt [] (0 : K) = .ok 0 := rfl
  simp only [rowAccum, h1, h2, hd]
  have harg : acc * random_coeff ^ E.columns_and_values.length + 0 * d = acc := by
    rw [hE]
    simp
  rw [harg]

/-- C10 (amended): a batch with an empty claim list contributes batch
coefficient `random_coeff ^ 0 = 1` and numerator `0`, so each row update
leaves the accumulator unchanged; inserting it anywhere preserves the
returned result provided its own denominator column is nonzero at every row
(otherwise the call aborts with `InvalidSample`, which the counterexample
below exhibits). -/
theorem C10_amended_empty_batch_insertion {B K : Type} [CommRing K] [IsDomain K]
    [DecidableEq K] (f : B → K) (conj finv : K → K)
    (pair_vanishing : CirclePoint K → CirclePoint K → CirclePoint K → K)
    (domain : CircleDomain B) (columns : List (List B)) (random_coeff : K)
    (l₁ l₂ : List (ColumnSampleBatch K)) (E : ColumnSampleBatch K)
    (hinv : ∀ y : K, y ≠ 0 → y * finv y = 1)
    (hE : E.columns_and_values = [])
    (hnzE : ∀ r, r < domain.size →
      pair_vanishing E.point (point_conjugate conj E.point)
        (into_ef f (domain.pts r)) ≠ 0) :
    accumulate_quotients f conj finv pair_vanishing domain columns random_coeff
        (l₁ ++ E :: l₂) =
      accumulate_quotients f conj finv pair_vanishing domain columns random_coeff
        (l₁ ++ l₂) := by
  by_cases hflat : ∀ b ∈ l₁ ++ l₂,
      ∀ x ∈ batchDenominators f conj pair_vanishing b domain, x ≠ 0
  · -- no zero denominator anywhere: both calls succeed and agree row by row
    have hnzE' : ∀ x ∈ batchDenominators f conj pair_vanishing E domain, x ≠ 0 := by
      intro x hx
      rcases List.mem_map.mp hx with ⟨r, hr, hxr⟩
      rw [← hxr]
      exact hnzE r (by simpa using hr)
    have hall : ∀ b ∈ l₁ ++ E :: l₂,
        ∀ x ∈ batchDenominators f conj pair_vanishing b domain, x ≠ 0 := by
      intro b hb
      rcases List.mem_append.mp hb with hb1 | hb2
      · exact hflat b (List.mem_append.mpr (Or.inl hb1))
      · rcases List.mem_cons.mp hb2 with hbe | hb2'
        · rw [hbe]; exact hnzE'
        · exact hflat b (List.mem_append.mpr (Or.inr hb2'))
    rw [accumulate_quotients, accumulate_quotients,
      quotient_constants_nonzero_form f conj finv pair_vanishing _ random_coeff
        domain hinv hall,
      quotient_constants_nonzero_form f conj finv pair_vanishing _ random_coeff
        domain hinv hflat]
    simp only [Bind.bind, Except.bind]
    have hpoint : ∀ r ∈ List.range domain.size,
        accumulate_row_quotients f (l₁ ++ E :: l₂) columns
          ⟨column_line_coeffs conj finv (l₁ ++ E :: l₂) random_coeff,
            batch_random_coeffs (l₁ ++ E :: l₂) random_coeff,
            (l₁ ++ E :: l₂).map fun b =>
              bit_reverse ((batchDenominators f conj pair_vanishing b domain).map finv)
                domain.logSize⟩ r
          (domain.pts (bit_reverse_index r domain.logSize)) =
        accumulate_row_quotients f (l₁ ++ l₂) columns
          ⟨column_line_coeffs conj finv (l₁ ++ l₂) random_coeff,
            batch_random_coeffs (l₁ ++ l₂) random_coeff,
            (l₁ ++ l₂).map fun b =>
              bit_reverse ((batchDenominators f conj pair_vanishing b domain).map finv)
                domain.logSize⟩ r
          (domain.pts (bit_reverse_index r domain.logSize)) := by
      intro r hr
      have hrlt : r < domain.size := by simpa using hr
      rw [accumulate_row_quotients, accumulate_row_quotients]
      have hzm : ∀ (sb : List (ColumnSampleBatch K)),
          zip4 sb (column_line_coeffs conj finv sb random_coeff)
            (batch_random_coeffs sb random_coeff)
            (sb.map fun b =>
              bit_reverse ((batchDenominators f conj pair_vanishing b domain).map finv)
                domain.logSize) =
          sb.map fun b => (b,
            lineCoeffsAux conj finv b.point random_coeff 1
              (b.columns_and_values.map Prod.snd),
            random_coeff ^ b.columns_and_values.length,
            bit_reverse ((batchDenominators f conj pair_vanishing b domain).map finv)
              domain.logSize) := by
        intro sb
        exact zip4_map _ _ _ _ (fun a => rfl) sb
      rw [hzm, hzm, List.map_append, List.map_cons, List.map_append,
        rowAccum_append, rowAccum_append]
      have hdlen : r < (bit_reverse ((batchDenominators f conj pair_vanishing E
          domain).map finv) domain.logSize).length := by
        rw [bit_reverse_length]
        exact hrlt
      have hstep := rowAccum_empty_batch_step f columns r
        (domain.pts (bit_reverse_index r domain.logSize)) conj finv random_coeff E
        (bit_reverse ((batchDenominators f conj pair_vanishing E domain).map finv)
          domain.logSize)
        (l₂.map fun b => (b,
          lineCoeffsAux conj finv b.point random_coeff 1
            (b.columns_and_values.map Prod.snd),
          random_coeff ^ b.columns_and_values.length,
          bit_reverse ((batchDenominators f conj pair_vanishing b domain).map finv)
            domain.logSize))
      cases hacc : rowAccum f columns r (domain.pts (bit_reverse_index r domain.logSize))
          (l₁.map fun b => (b,
            lineCoeffsAux conj finv b.point random_coeff 1
              (b.columns_and_values.map Prod.snd),
            random_coeff ^ b.columns_and_values.length,
            bit_reverse ((batchDenominators f conj pair_vanishing b domain).map finv)
              domain.logSize)) 0 with
      | error e => rfl
      | ok acc2 =>
        simp only [Bind.bind, Except.bind]
        exact hstep acc2 _ hE (List.get?_eq_get hdlen)
    rw [collectRows_congr _ _ _ hpoint]
  · -- some denominator among the original batches is zero: both calls abort
    push_neg at hflat
    rcases hflat with ⟨b, hb, x, hx, hxz⟩
    rcases List.mem_map.mp hx with ⟨r, hr, hxr⟩
    have hz : pair_vanishing b.point (point_conjugate conj b.point)
        (into_ef f (domain.pts r)) = 0 := by
      rw [hxr]
      simpa using hxz
    have hb' : b ∈ l₁ ++ E :: l₂ := by
      rcases List.mem_append.mp hb with hb1 | hb2
      · exact List.mem_append.mpr (Or.inl hb1)
      · exact List.mem_append.mpr (Or.inr (List.mem_cons_of_mem E hb2))
    have e1 := (zero_denominator_aborts f conj finv pair_vanishing domain columns
      random_coeff (l₁ ++ E :: l₂) b r hb' (by simpa using hr) hz).2
    have e2 := (zero_denominator_aborts f conj finv pair_vanishing domain columns
      random_coeff (l₁ ++ l₂) b r hb (by simpa using hr) hz).2
    rw [e1, e2]

/-! ### Counterexamples -/

/-- C2 counterexample: with an empty column list and a batch referencing
column 0, the precomputation succeeds (so the out-of-range index is NOT
detected during precomputation, contrary to the claim); the error only
surfaces when the call reaches row accumulation. -/
theorem C2_counterexample :
    quotient_constants (id : ZMod 5 → ZMod 5) exConj exInv exPV [exBatchBad] 2
        exDomain0 = .ok ⟨[[(1, 0, 2)]], [2], [[3]]⟩ ∧
    accumulate_quotients (id : ZMod 5 → ZMod 5) exConj exInv exPV exDomain0 [] 2
        [exBatchBad] = .error .IndexOutOfRange :=
  ⟨rfl, rfl⟩

/-- C10 counterexample: inserting an empty batch whose point collides with a
domain point turns a successful call into an `InvalidSample` failure, so
inserting an empty batch does not always preserve the returned evaluation. -/
theorem C10_counterexample :
    accumulate_quotients (id : ZMod 5 → ZMod 5) exConj exInv exPV exDomain0 [[3]] 2
        [] = .ok (exDomain0, [0]) ∧
    accumulate_quotients (id : ZMod 5 → ZMod 5) exConj exInv exPV exDomain0 [[3]] 2
        [exBatchEmptyZero] = .error .InvalidSample :=
  ⟨rfl, rfl⟩

/-! ### Witnesses -/

theorem C1_orchestration_witness :
    accumulate_quotients (id : ZMod 5 → ZMod 5) exConj exInv exPV exDomain0 [[3]] 2
        [exBatch1] = .ok (exDomain0, [3]) ∧
    (exDomain0 = exDomain0 ∧ ([3] : List (ZMod 5)).length = exDomain0.size ∧
      ∃ qc, quotient_constants (id : ZMod 5 → ZMod 5) exConj exInv exPV [exBatch1] 2
          exDomain0 = .ok qc ∧
        ∀ r, r < exDomain0.size →
          accumulate_row_quotients (id : ZMod 5 → ZMod 5) [exBatch1] [[3]] qc r
              (exDomain0.pts (bit_reverse_index r exDomain0.logSize)) =
            .ok (([3] : List (ZMod 5)).getD r 0) ∧
          ([3] : List (ZMod 5)).getD r 0 = specRowValue (id : ZMod 5 → ZMod 5)
            [exBatch1] [[3]] qc r
            (exDomain0.pts (bit_reverse_index r exDomain0.logSize))) :=
  ⟨rfl, C1_orchestration id exConj exInv exPV exDomain0 [[3]] 2 [exBatch1] exDomain0
    [3] rfl⟩

theorem C2_amended_witness :
    quotient_constants (id : ZMod 5 → ZMod 5) exConj exInv exPV [exBatchBad] 2
        exDomain0 = .ok ⟨[[(1, 0, 2)]], [2], [[3]]⟩ ∧
    (∃ b ∈ [exBatchBad], ∃ p ∈ b.columns_and_values,
      ([] : List (List (ZMod 5))).get? p.1 = none) ∧
    (accumulate_row_quotients (id : ZMod 5 → ZMod 5) [exBatchBad] []
        ⟨[[(1, 0, 2)]], [2], [[3]]⟩ 0
        (exDomain0.pts (bit_reverse_index 0 exDomain0.logSize)) =
        .error .IndexOutOfRange ∧
      accumulate_quotients (id : ZMod 5 → ZMod 5) exConj exInv exPV exDomain0 [] 2
        [exBatchBad] = .error .IndexOutOfRange) :=
  ⟨rfl, by decide, C2_amended_index_error_in_row_phase id exConj exInv exPV exDomain0
    [] 2 [exBatchBad] ⟨[[(1, 0, 2)]], [2], [[3]]⟩ rfl (by decide)⟩

theorem C3_witness :
    (∀ y : ZMod 5, y ≠ 0 → y * exInv y = 1) ∧
    (∀ b ∈ [exBatch1], ∀ r, r < exDomain2.size →
      exPV b.point (point_conjugate exConj b.point) (into_ef id (exDomain2.pts r)) ≠ 0) ∧
    denominator_inverses (id : ZMod 5 → ZMod 5) exConj exInv exPV [exBatch1]
        exDomain2 =
      .ok ([exBatch1].map fun b =>
        bit_reverse ((List.range exDomain2.size).map fun r =>
          exInv (exPV b.point (point_conjugate exConj b.point)
            (into_ef id (exDomain2.pts r)))) exDomain2.logSize) :=
  ⟨by decide, by decide, C3_denominator_pipeline id exConj exInv exPV [exBatch1]
    exDomain2 (by decide) (by decide)⟩

theorem C4_witness :
    0 < ([exBatch4] : List (ColumnSampleBatch (ZMod 5))).length ∧
    1 < (([exBatch4] : List (ColumnSampleBatch (ZMod 5))).getD 0
      default).columns_and_values.length ∧
    exConj (([exBatch4] : List (ColumnSampleBatch (ZMod 5))).getD 0 default).point.y ≠
      (([exBatch4] : List (ColumnSampleBatch (ZMod 5))).getD 0 default).point.y ∧
    (((column_line_coeffs exConj exInv [exBatch4] 2).getD 0 []).getD 1
      (0, 0, 0)).2.2 = (2 : ZMod 5) ^ (1 + 1) :=
  ⟨by decide, by decide, by decide,
    (C4_line_coefficients exConj exInv (by decide) [exBatch4] 2 0 1 (by decide)
      (by decide) (by decide)).1⟩

theorem C5_witness :
    (batch_random_coeffs [exBatch4] (2 : ZMod 5)).length =
      ([exBatch4] : List (ColumnSampleBatch (ZMod 5))).length ∧
    0 < ([exBatch4] : List (ColumnSampleBatch (ZMod 5))).length ∧
    (batch_random_coeffs [exBatch4] (2 : ZMod 5)).getD 0 0 =
      (2 : ZMod 5) ^ (([exBatch4] : List (ColumnSampleBatch (ZMod 5))).getD 0
        default).columns_and_values.length :=
  ⟨(C5_batch_random_coefficients [exBatch4] 2).1, by decide,
    (C5_batch_random_coefficients [exBatch4] 2).2 0 (by decide)⟩

theorem C6_witness :
    exBatchZero ∈ [exBatchZero] ∧ 0 < exDomain2.size ∧
    exPV exBatchZero.point (point_conjugate exConj exBatchZero.point)
      (into_ef id (exDomain2.pts 0)) = 0 ∧
    (quotient_constants (id : ZMod 5 → ZMod 5) exConj exInv exPV [exBatchZero] 2
        exDomain2 = .error .InvalidSample ∧
      accumulate_quotients (id : ZMod 5 → ZMod 5) exConj exInv exPV exDomain2
        [[1, 2, 3, 4]] 2 [exBatchZero] = .error .InvalidSample) :=
  ⟨by decide, by decide, by decide,
    C6_zero_denominator_aborts id exConj exInv exPV exDomain2 [[1, 2, 3, 4]] 2
      [exBatchZero] exBatchZero 0 (by decide) (by decide) (by decide)⟩

theorem C7_witness :
    quotient_constants (id : ZMod 5 → ZMod 5) exConj exInv exPV [] 2 exDomain0 =
      .ok ⟨[], [], []⟩ ∧
    ((⟨[], [], []⟩ : QuotientConstants (ZMod 5)).line_coeffs.length =
        ([] : List (ColumnSampleBatch (ZMod 5))).length ∧
      (⟨[], [], []⟩ : QuotientConstants (ZMod 5)).batch_random_coeffs.length =
        ([] : List (ColumnSampleBatch (ZMod 5))).length ∧
      (⟨[], [], []⟩ : QuotientConstants (ZMod 5)).denominator_inverses.length =
        ([] : List (ColumnSampleBatch (ZMod 5))).length ∧
      (∀ i, i < ([] : List (ColumnSampleBatch (ZMod 5))).length →
        ((⟨[], [], []⟩ : QuotientConstants (ZMod 5)).line_coeffs.getD i []).length =
          (([] : List (ColumnSampleBatch (ZMod 5))).getD i
            default).columns_and_values.length ∧
        ((⟨[], [], []⟩ : QuotientConstants (ZMod 5)).denominator_inverses.getD
          i []).length = exDomain0.size) ∧
      ∀ (columns : List (List (ZMod 5))) (row : ℕ) (pt : CirclePoint (ZMod 5)),
        accumulate_row_quotients id [] columns ⟨[], [], []⟩ row pt ≠
          .error .ShapeMismatch) :=
  ⟨rfl, C7_constants_shape id exConj exInv exPV [] 2 exDomain0 ⟨[], [], []⟩ rfl⟩

theorem C8_witness :
    (∀ y : ZMod 5, y ≠ 0 → y * exInv y = 1) ∧ exDomain2.logSize = 2 ∧
    accumulate_quotients (id : ZMod 5 → ZMod 5) exConj exInv exPV exDomain2
        [[1, 2, 3, 4]] 2 [⟨⟨2, 1⟩, [(0, 2)]⟩] = .ok (exDomain2, [0, 4, 3, 2]) ∧
    accumulate_quotients (id : ZMod 5 → ZMod 5) exConj exInv exPV exDomain2
        [[1, 2, 3, 4]] 2 [⟨⟨1, 3⟩, [(0, 4)]⟩] = .ok (exDomain2, [1, 4, 2, 0]) ∧
    accumulate_quotients (id : ZMod 5 → ZMod 5) exConj exInv exPV exDomain2
        [[1, 2, 3, 4]] 2 [⟨⟨2, 1⟩, [(0, 2)]⟩, ⟨⟨1, 3⟩, [(0, 4)]⟩] =
      .ok (exDomain2, [1, 2, 3, 4]) ∧
    ([1, 2, 3, 4] : List (ZMod 5)) =
      List.zipWith (fun x y => x * 2 + y) [0, 4, 3, 2] [1, 4, 2, 0] :=
  ⟨by decide, rfl, rfl, rfl, rfl,
    C8_batch_composition id exConj exInv exPV exDomain2 [[1, 2, 3, 4]] 2 ⟨2, 1⟩
      ⟨1, 3⟩ 0 0 2 4 (by decide) rfl exDomain2 exDomain2 exDomain2 [0, 4, 3, 2]
      [1, 4, 2, 0] [1, 2, 3, 4] rfl rfl rfl⟩

theorem C9_witness :
    ([[3]] : List (List (ZMod 5))) ≠ [] ∧
    accumulate_quotients (id : ZMod 5 → ZMod 5) exConj exInv exPV exDomain0 [[3]] 2
      [] = .ok (exDomain0, List.replicate exDomain0.size 0) :=
  ⟨by decide, C9_empty_sample_batches id exConj exInv exPV exDomain0 [[3]] 2
    (by decide)⟩

theorem C10_amended_witness :
    (∀ y : ZMod 5, y ≠ 0 → y * exInv y = 1) ∧
    exBatchEmpty.columns_and_values = [] ∧
    (∀ r, r < exDomain0.size →
      exPV exBatchEmpty.point (point_conjugate exConj exBatchEmpty.point)
        (into_ef id (exDomain0.pts r)) ≠ 0) ∧
    accumulate_quotients (id : ZMod 5 → ZMod 5) exConj exInv exPV exDomain0 [[3]] 2
        ([] ++ exBatchEmpty :: []) =
      accumulate_quotients (id : ZMod 5 → ZMod 5) exConj exInv exPV exDomain0 [[3]] 2
        ([] ++ []) :=
  ⟨by decide, rfl, by decide,
    C10_amended_empty_batch_insertion id exConj exInv exPV exDomain0 [[3]] 2 [] []
      exBatchEmpty (by decide) rfl (by decide)⟩

end Stwo
